import Mathlib

/-!
Verification development for the literal-hell repository (src/src/index.js and
src/src/lib/file.js): a shallow embedding of the escape-policy engine, the
idempotency line-window detector, the position-ordered text patcher and the
interactive review loop, together with theorems about the documented
properties of those components.

JavaScript strings are modelled as lists of characters (`Str`).  Each JS
string primitive used by the source (includes, startsWith, indexOf with a
start offset, split, join, substring via take/drop, global single-character
or substring replacement) is given its own executable definition below.
-/

namespace LH

/-- Model of a JavaScript string: a list of UTF-16-ish characters. -/
abbrev Str := List Char

/-- The double-quote character. -/
def quotC : Char := Char.ofNat 34

/-- The apostrophe character. -/
def aposC : Char := Char.ofNat 39

/-- The newline character. -/
def nlC : Char := Char.ofNat 10

/-- Membership of a character in a string: JS `str.includes(c)` for a
single-character needle. -/
def hasC (c : Char) : Str → Bool
  | [] => false
  | x :: xs => if x = c then true else hasC c xs

/-- Boolean prefix test: `pat` is a prefix of the second argument. -/
def isPre : Str → Str → Bool
  | [], _ => true
  | _ :: _, [] => false
  | a :: as, b :: bs => if a = b then isPre as bs else false

/-- Index of the first occurrence of `pat` as a contiguous substring
(JS `indexOf` without a start offset), `none` when absent. -/
def subIdx (pat : Str) : Str → Option Nat
  | [] => if isPre pat [] then some 0 else none
  | c :: rest =>
    if isPre pat (c :: rest) then some 0
    else (subIdx pat rest).map (fun n => n + 1)

/-- JS `str.includes(sub)` for a substring needle. -/
def strIncludes (s sub : Str) : Bool := (subIdx sub s).isSome

/-- JS `str.indexOf(pat, start)`: first occurrence of `pat` at index `start`
or later; `none` models the -1 result. -/
def idxOfStrFrom (t pat : Str) (start : Nat) : Option Nat :=
  (subIdx pat (t.drop start)).map (fun n => n + start)

/-- JS `str.startsWith(p)`. -/
def strStartsWith (s p : Str) : Bool := isPre p s

/-- JS `str.endsWith(p)`. -/
def strEndsWith (s p : Str) : Bool := isPre p.reverse s.reverse

/-- JS `str.split(c)`; always returns at least one (possibly empty) piece. -/
def splitOnChar (c : Char) : Str → List Str
  | [] => [[]]
  | x :: xs =>
    match splitOnChar c xs with
    | [] => [[]]
    | h :: t => if x = c then [] :: h :: t else (x :: h) :: t

/-- JS `array.join(c)` for a single-character separator. -/
def joinWith (c : Char) : List Str → Str
  | [] => []
  | [s] => s
  | s :: rest => s ++ c :: joinWith c rest

/-- Number of occurrences of a character in a string. -/
def countC (c : Char) : Str → Nat
  | [] => 0
  | x :: xs => (if x = c then 1 else 0) + countC c xs

/-- Number of occurrences of a token in a list of tokens. -/
def countToks (t : Str) : List Str → Nat
  | [] => 0
  | x :: xs => (if x = t then 1 else 0) + countToks t xs

/-- Number of non-overlapping, left-to-right occurrences of `pat`
(JS `(s.match(/pat/g) || []).length` for a literal pattern). -/
def countSubstr (pat : Str) (s : Str) : Nat :=
  match s with
  | [] => 0
  | c :: rest =>
    if h : pat ≠ [] ∧ isPre pat (c :: rest) = true then
      1 + countSubstr pat ((c :: rest).drop pat.length)
    else countSubstr pat rest
termination_by s.length
decreasing_by
· have hp : 0 < pat.length := List.length_pos.mpr h.1
  simp only [List.length_drop, List.length_cons]
  omega
· simp only [List.length_cons]
  omega

/-- Global non-overlapping replacement of a literal substring
(JS `s.replace(/pat/g, rep)`). -/
def replaceSubstr (pat rep : Str) (s : Str) : Str :=
  match s with
  | [] => []
  | c :: rest =>
    if h : pat ≠ [] ∧ isPre pat (c :: rest) = true then
      rep ++ replaceSubstr pat rep ((c :: rest).drop pat.length)
    else c :: replaceSubstr pat rep rest
termination_by s.length
decreasing_by
· have hp : 0 < pat.length := List.length_pos.mpr h.1
  simp only [List.length_drop, List.length_cons]
  omega
· simp only [List.length_cons]
  omega

/-- Map each character to a replacement string and concatenate: the shape of
a JS `s.replace(/[class]/g, c => ...)` call. -/
def charMapCat (f : Char → Str) : Str → Str
  | [] => []
  | c :: cs => f c ++ charMapCat f cs

/-- JS `s.replace(/c/g, rep)` for a single character `c`. -/
def replaceAllChar (c : Char) (rep : Str) (s : Str) : Str :=
  charMapCat (fun x => if x = c then rep else [x]) s

/-- Helper for `jsDedup`: drop characters already seen. -/
def jsDedupAux (seen : List Char) : List Char → List Char
  | [] => []
  | c :: cs => if c ∈ seen then jsDedupAux seen cs else c :: jsDedupAux (c :: seen) cs

/-- JS `[...new Set(l)]`: deduplication keeping the first occurrence of each
element, in order. -/
def jsDedup (l : List Char) : List Char := jsDedupAux [] l

/-- JS `s.toLowerCase()` (restricted to the character-wise mapping). -/
def lowerStr (s : Str) : Str := s.map Char.toLower

/-- Ascending list of the indices at which character `c` occurs in `s`. -/
def charPositions (c : Char) : Str → List Nat
  | [] => []
  | x :: xs =>
    let rest := (charPositions c xs).map (fun n => n + 1)
    if x = c then 0 :: rest else rest

/-- The entity text for a double quote. -/
def entQuot : Str := ['&', 'q', 'u', 'o', 't', ';']

/-- The entity text for an apostrophe. -/
def entApos : Str := ['&', 'a', 'p', 'o', 's', ';']

/-- The entity text for an ampersand. -/
def entAmp : Str := ['&', 'a', 'm', 'p', ';']

/-- The entity text for a left angle bracket. -/
def entLt : Str := ['&', 'l', 't', ';']

/-- The entity text for a right angle bracket. -/
def entGt : Str := ['&', 'g', 't', ';']

/-- The doubled-escape pattern for a double quote (`&amp;quot;`). -/
def dblQuotE : Str := entAmp ++ ['q', 'u', 'o', 't', ';']

/-- The doubled-escape pattern for an apostrophe (`&amp;apos;`). -/
def dblAposE : Str := entAmp ++ ['a', 'p', 'o', 's', ';']

/-- The doubled-escape pattern for a left angle bracket (`&amp;lt;`). -/
def dblLtE : Str := entAmp ++ ['l', 't', ';']

/-- The doubled-escape pattern for a right angle bracket (`&amp;gt;`). -/
def dblGtE : Str := entAmp ++ ['g', 't', ';']

/-- The ESCAPES table of index.js lines 15-21: entity for each of the five
managed characters, identity elsewhere. -/
def ESCAPES (c : Char) : Str :=
  if c = quotC then entQuot
  else if c = aposC then entApos
  else if c = '&' then entAmp
  else if c = '<' then entLt
  else if c = '>' then entGt
  else [c]

/-- Whether `c` is one of the five managed characters (the class of the
regex at index.js line 249). -/
def isManagedChar (c : Char) : Bool :=
  decide (c = quotC ∨ c = aposC ∨ c = '&' ∨ c = '<' ∨ c = '>')

/-- shouldExcludeFromEscaping from index.js lines 104-131.  The ambient
`strictMode` flag is passed explicitly. -/
def shouldExcludeFromEscaping (strict : Bool) (str : Str) : Bool :=
  if strict then false
  else if hasC '?' str && hasC '&' str && !hasC ' ' str then true
  else if strStartsWith str ['&'] && hasC '=' str && !hasC ' ' str then true
  else if strStartsWith str ['&'] && hasC ':' str then true
  else if str = ['&'] || str = ['>', '>'] || str = ['&', '&'] then true
  else false

/-- Whether a numeric-entity pattern `&#digits;` starts at the head of the
string. -/
def numericAt : Str → Bool
  | '&' :: '#' :: rest =>
    let ds := rest.takeWhile Char.isDigit
    if ds = [] then false
    else
      match rest.drop ds.length with
      | ';' :: _ => true
      | _ => false
  | _ => false

/-- Whether the regex `&#(\d+);` matches anywhere in the string. -/
def hasNumericEntity : Str → Bool
  | [] => false
  | c :: rest => numericAt (c :: rest) || hasNumericEntity rest

/-- containsHtmlEntities from index.js lines 134-145: any of the five named
entities, any of the four doubled-escape patterns, or a numeric entity. -/
def containsHtmlEntities (s : Str) : Bool :=
  (strIncludes s entQuot || strIncludes s entApos || strIncludes s entAmp ||
    strIncludes s entLt || strIncludes s entGt) ||
  (strIncludes s dblQuotE || strIncludes s dblAposE ||
    strIncludes s dblLtE || strIncludes s dblGtE) ||
  hasNumericEntity s

/-- Result of escapeString: the source returns the input string itself
(`noEscape`, the "no escaping needed" sentinel) or an object with the
escaped text and the deduplicated list of changed characters. -/
inductive EscapeResult where
  | noEscape
  | outcome (result : Str) (escapedChars : List Char)
deriving DecidableEq

/-- The escaped text of an escape result; for the sentinel the caller keeps
the input itself. -/
def escapedTextOf (input : Str) : EscapeResult → Str
  | .noEscape => input
  | .outcome r _ => r

/-- Per-character replacement of the JSX branch of escapeString
(regex `[\"']` at index.js line 236): quotes and apostrophes only. -/
def escQAChar (c : Char) : Str :=
  if c = quotC ∨ c = aposC then ESCAPES c else [c]

/-- Per-character replacement of the general branch of escapeString
(regex `[\"'&<>]` at index.js line 249): all five managed characters. -/
def escAllChar (c : Char) : Str :=
  if isManagedChar c then ESCAPES c else [c]

/-- escapeString from index.js lines 220-258. -/
def escapeString (strict : Bool) (str : Str) : EscapeResult :=
  if shouldExcludeFromEscaping strict str then .noEscape
  else if containsHtmlEntities str then .noEscape
  else if hasC '<' str || hasC '>' str then
    .outcome (charMapCat escQAChar str)
      (jsDedup (str.filter (fun c => decide (c = quotC ∨ c = aposC))))
  else
    .outcome (charMapCat escAllChar str) (jsDedup (str.filter isManagedChar))

/-- The skip reasons produced by isAutoSkipPattern, in source order. -/
inductive SkipReason where
  | cssSelector
  | cssFile
  | cssInJs
  | fontFamily
  | queryParam
  | cssSelectorEnhanced
  | cssPropertyValue
deriving DecidableEq

/-- The string constant style. -/
def styleS : Str := ['s', 't', 'y', 'l', 'e']

/-- The string constant Style. -/
def styleCapS : Str := ['S', 't', 'y', 'l', 'e']

/-- The string constant className. -/
def classNameS : Str := ['c', 'l', 'a', 's', 's', 'N', 'a', 'm', 'e']

/-- The string constant css. -/
def cssS : Str := ['c', 's', 's']

/-- The file extension .css. -/
def dotCss : Str := ['.', 'c', 's', 's']

/-- The file extension .scss. -/
def dotScss : Str := ['.', 's', 'c', 's', 's']

/-- The file extension .less. -/
def dotLess : Str := ['.', 'l', 'e', 's', 's']

/-- The file extension .styl. -/
def dotStyl : Str := ['.', 's', 't', 'y', 'l']

/-- The string constant system. -/
def systemS : Str := ['s', 'y', 's', 't', 'e', 'm']

/-- The string constant serif. -/
def serifS : Str := ['s', 'e', 'r', 'i', 'f']

/-- The string constant sans-serif. -/
def sansSerifS : Str := ['s', 'a', 'n', 's', '-'] ++ serifS

/-- The string constant monospace. -/
def monoS : Str := ['m', 'o', 'n', 'o', 's', 'p', 'a', 'c', 'e']

/-- The string constant Roboto. -/
def robotoS : Str := ['R', 'o', 'b', 'o', 't', 'o']

/-- The string constant Arial. -/
def arialS : Str := ['A', 'r', 'i', 'a', 'l']

/-- The string constant Helvetica. -/
def helveticaS : Str := ['H', 'e', 'l', 'v', 'e', 't', 'i', 'c', 'a']

/-- The string constant font. -/
def fontS : Str := ['f', 'o', 'n', 't']

/-- The string constant Font. -/
def fontCapS : Str := ['F', 'o', 'n', 't']

/-- The string constant query. -/
def queryS : Str := ['q', 'u', 'e', 'r', 'y']

/-- The string constant filter. -/
def filterS : Str := ['f', 'i', 'l', 't', 'e', 'r']

/-- The string constant param. -/
def paramS : Str := ['p', 'a', 'r', 'a', 'm']

/-- Whether the whole string is nonempty and matches `[A-Za-z-]+`
(regex at index.js line 402). -/
def isAlphaDashAll (s : Str) : Bool :=
  decide (s ≠ []) &&
  s.all (fun c =>
    decide (('A' ≤ c ∧ c ≤ 'Z') ∨ ('a' ≤ c ∧ c ≤ 'z') ∨ c = '-'))

/-- Whether the string matches `^&[.#[]` (index.js line 413). -/
def startsAmpClass : Str → Bool
  | '&' :: c :: _ => decide (c = '.' ∨ c = '#' ∨ c = '[')
  | _ => false

/-- isAutoSkipPattern from index.js lines 373-427.  The `line` argument is
1-indexed; the last branch reads `filePath.split(newline)[line-1] || empty`,
splitting the file PATH (as the source does), so for `line = 0` the JS index
is -1 and the context is empty. -/
def isAutoSkipPattern (strict : Bool) (str filePath : Str) (line : Nat)
    (_column : Nat) : Option SkipReason :=
  if strict then none
  else if strStartsWith str ['&'] &&
      (hasC ' ' str || hasC '[' str || hasC ':' str) then
    some .cssSelector
  else if strEndsWith filePath dotCss || strEndsWith filePath dotScss ||
      strEndsWith filePath dotLess || strEndsWith filePath dotStyl then
    some .cssFile
  else if (strStartsWith str ['&'] || strIncludes str [' ', '&']) &&
      (strIncludes filePath styleS || strIncludes filePath styleCapS ||
        strIncludes filePath dotCss || strIncludes filePath dotScss) then
    some .cssInJs
  else if (strIncludes str systemS || strIncludes str serifS ||
      strIncludes str sansSerifS || strIncludes str monoS ||
      strIncludes str robotoS || strIncludes str arialS ||
      strIncludes str helveticaS || strIncludes str fontS ||
      strIncludes str fontCapS) &&
      (hasC ',' str || isAlphaDashAll str) then
    some .fontFamily
  else if hasC '&' str &&
      (strIncludes str queryS || strIncludes str filterS ||
        strIncludes str paramS) then
    some .queryParam
  else if startsAmpClass str || strStartsWith str ['&', ':'] ||
      strStartsWith str ['&', '>'] || strIncludes str [' ', '&', ' '] then
    some .cssSelectorEnhanced
  else
    let lineContext :=
      match line with
      | 0 => ([] : Str)
      | l + 1 => (splitOnChar nlC filePath).getD l []
    if (strIncludes lineContext styleS || strIncludes lineContext styleCapS ||
        strIncludes lineContext classNameS || strIncludes lineContext cssS) &&
        (hasC ':' lineContext || hasC '=' lineContext) &&
        (hasC '-' str || hasC ' ' str || hasC ',' str) then
      some .cssPropertyValue
    else none

/-- Confidence levels reported by isAlreadyEscapedInLineWindow. -/
inductive Confidence where
  | high
  | medium
deriving DecidableEq

/-- Reasons reported by isAlreadyEscapedInLineWindow. -/
inductive WinReason where
  | exactMatch
  | contentSimilarity
  | contextPattern
deriving DecidableEq

/-- Result of isAlreadyEscapedInLineWindow: the early `return false` on
originals without quote characters, a match object, or
`{ matched: false }`. -/
inductive WindowResult where
  | rawFalse
  | found (confidence : Confidence) (reason : WinReason)
  | noMatch
deriving DecidableEq

/-- Whether a window result reports a match (the `.matched` field; the early
bare `false` is falsy as well). -/
def WindowResult.isMatched : WindowResult → Bool
  | .found _ _ => true
  | _ => false

/-- isAlreadyEscapedInLineWindow from index.js lines 495-584.  `fileContent`
stands for the text read from `filePath`; `lineNumber` is the 1-indexed
reported line. -/
def isAlreadyEscapedInLineWindow (fileContent : Str) (lineNumber : Nat)
    (originalString : Str) : WindowResult :=
  if !hasC aposC originalString && !hasC quotC originalString then .rawFalse
  else
    let lines := splitOnChar nlC fileContent
    let escapedString :=
      replaceAllChar quotC entQuot (replaceAllChar aposC entApos originalString)
    let windowStart := lineNumber - 11
    let windowEnd := min (lines.length - 1) (lineNumber + 9)
    let windowLines := (lines.drop windowStart).take (windowEnd + 1 - windowStart)
    if windowLines.any (fun l => strIncludes l escapedString) then
      .found .high .exactMatch
    else
      let windowText := joinWith nlC windowLines
      let similar :=
        if hasC aposC originalString && hasC nlC originalString then
          let apostropheCount := countC aposC originalString
          let aposCount := countSubstr entApos windowText
          if apostropheCount ≤ aposCount then
            let strippedOriginal := lowerStr (replaceAllChar aposC [] originalString)
            let strippedWindow := lowerStr (replaceSubstr entApos [] windowText)
            strIncludes strippedWindow (strippedOriginal.take 20) &&
              strIncludes strippedWindow
                (strippedOriginal.drop (strippedOriginal.length - 20))
          else false
        else false
      if similar then .found .medium .contentSimilarity
      else
        let contextOk :=
          if hasC aposC originalString then
            let apostropheIndices := charPositions aposC originalString
            let allEscaped := apostropheIndices.all (fun idx =>
              let before := (originalString.take idx).drop (idx - 10)
              let after := (originalString.take (idx + 11)).drop (idx + 1)
              strIncludes windowText (before ++ entApos ++ after))
            allEscaped && decide (apostropheIndices ≠ [])
          else false
        if contextOk then .found .medium .contextPattern
        else .noMatch

/-- The string-literal patch of processFile (index.js lines 1116-1150)
restricted to one line: read the quote character at `column`, find the
closing quote strictly after `column + 1`, verify the content between them
equals `original`, and splice in `escaped`.  The Bool reports whether the
patch was applied (the `changed = true` assignment).  When `column` is out
of range the JS quote character is `undefined` and `indexOf` (searching from
beyond the end of the line) finds nothing, so no patch happens. -/
def patchOne (targetLine : Str) (column : Nat) (original escaped : Str) :
    Str × Bool :=
  match targetLine[column]? with
  | none => (targetLine, false)
  | some q =>
    match idxOfStrFrom targetLine [q] (column + 1) with
    | none => (targetLine, false)
    | some p =>
      if column + 1 < p then
        if (targetLine.drop (column + 1)).take (p - (column + 1)) = original then
          (targetLine.take (column + 1) ++ escaped ++ targetLine.drop p, true)
        else (targetLine, false)
      else (targetLine, false)

/-- The span a literal-context patch would touch: the closing-quote position
and the current content between the quotes, when a well-formed span exists
at `column`. -/
def literalSpanAt (t : Str) (column : Nat) : Option (Nat × Str) :=
  match t[column]? with
  | none => none
  | some q =>
    match idxOfStrFrom t [q] (column + 1) with
    | none => none
    | some p =>
      if column + 1 < p then
        some (p, (t.drop (column + 1)).take (p - (column + 1)))
      else none

/-- The literal-context patch applied to the file's line array (index.js
lines 1116-1150): `line` is the 1-indexed candidate line.  A `line` of 0 or
beyond the array models the JS undefined-target error path, which changes
nothing (the exception is caught by the review loop). -/
def applyLiteralFix (lines : List Str) (line column : Nat)
    (original escaped : Str) : List Str × Bool :=
  match line with
  | 0 => (lines, false)
  | l + 1 =>
    match lines[l]? with
    | none => (lines, false)
    | some t =>
      let r := patchOne t column original escaped
      (lines.set l r.1, r.2)

/-- One string-literal segment of a line: opening/closing quote character,
the content between the quotes, its escaped form, and the raw text
following the closing quote up to the next segment. -/
structure Seg where
  q : Char
  orig : Str
  esc : Str
  post : Str
deriving DecidableEq

/-- The raw text of a segment before patching. -/
def segOrigText (s : Seg) : Str := s.q :: (s.orig ++ s.q :: s.post)

/-- The raw text of a segment after patching. -/
def segEscText (s : Seg) : Str := s.q :: (s.esc ++ s.q :: s.post)

/-- Description of one line of a file: leading text, then its literal
segments in left-to-right order. -/
structure LineDesc where
  pre : Str
  segs : List Seg
deriving DecidableEq

/-- Concatenate the per-element strings of a list. -/
def flatCat {α : Type} (f : α → Str) : List α → Str
  | [] => []
  | a :: as => f a ++ flatCat f as

/-- The raw text of a described line. -/
def buildLine (d : LineDesc) : Str := d.pre ++ flatCat segOrigText d.segs

/-- The text of a described line with every segment escaped. -/
def buildEscLine (d : LineDesc) : Str := d.pre ++ flatCat segEscText d.segs

/-- A candidate fix as carried by processFile: 1-indexed line, 0-indexed
column of the opening quote, original and escaped text. -/
structure FileCand where
  line : Nat
  col : Nat
  orig : Str
  esc : Str
deriving DecidableEq

/-- The candidates of one line's segments in ascending column order; `n` is
the column of the next opening quote. -/
def ascCands (lineNo : Nat) : Nat → List Seg → List FileCand
  | _, [] => []
  | n, s :: rest =>
    ⟨lineNo, n, s.orig, s.esc⟩ :: ascCands lineNo (n + (segOrigText s).length) rest

/-- All candidates of a described file in document order, lines numbered
from `ln`. -/
def fileCandsFrom : Nat → List LineDesc → List FileCand
  | _, [] => []
  | ln, d :: rest =>
    ascCands ln d.pre.length d.segs ++ fileCandsFrom (ln + 1) rest

/-- Well-formedness of a segment: a string literal's content is nonempty and
cannot contain its own (unescaped) quote character. -/
def segOk (s : Seg) : Prop := s.orig ≠ [] ∧ s.q ∉ s.orig

/-- Well-formedness of a file description. -/
def descOk (fd : List LineDesc) : Prop := ∀ d ∈ fd, ∀ s ∈ d.segs, segOk s

instance (s : Seg) : Decidable (segOk s) := by
  unfold segOk
  infer_instance

instance (fd : List LineDesc) : Decidable (descOk fd) := by
  unfold descOk
  infer_instance

/-- The comparator of index.js lines 938-945 as an order: `a` comes before
`b` when `b.line - a.line` (then `b.col - a.col`) is nonpositive, i.e. the
list is sorted by descending line, then descending column. -/
def fixLE (a b : FileCand) : Prop :=
  b.line < a.line ∨ (b.line = a.line ∧ b.col ≤ a.col)

instance : DecidableRel fixLE := fun a b => by unfold fixLE; infer_instance

instance : IsTotal FileCand fixLE := ⟨by intro a b; unfold fixLE; omega⟩

instance : IsTrans FileCand fixLE :=
  ⟨by intro a b c hab hbc; unfold fixLE at hab hbc ⊢; omega⟩

/-- The `stringFixes.sort` call of index.js line 938 (a comparison sort on
the descending line/column comparator; with distinct positions the sorted
result is unique, so any comparison sort models `Array.prototype.sort`). -/
def sortFixes (l : List FileCand) : List FileCand := List.insertionSort fixLE l

/-- Folding step: apply one candidate's literal patch to the file lines. -/
def patchStep (st : List Str) (c : FileCand) : List Str :=
  (applyLiteralFix st c.line c.col c.orig c.esc).1

/-- The (line, column) key of a candidate. -/
def keyLC (c : FileCand) : Nat × Nat := (c.line, c.col)

/-- Outcome of the final write of processFile (lines 1171-1194). -/
structure SaveOutcome where
  written : Option Str
  success : Bool
deriving DecidableEq

/-- The final save step of processFile (index.js lines 1171-1194): when
changes exist, join the line array, refuse to write when a doubled escape
of an angle bracket is present, otherwise write and re-read the file.
`_readBack` is the content returned by the re-read (`newContents`); the
source only logs its length, so the outcome does not depend on it. -/
def finalSave (changed : Bool) (fileLines : List Str) (_readBack : Str) :
    SaveOutcome :=
  if !changed then ⟨none, false⟩
  else
    let content := joinWith nlC fileLines
    if strIncludes content dblLtE || strIncludes content dblGtE then
      ⟨none, false⟩
    else ⟨some content, true⟩

/-- writeFileWithVerification from src/src/lib/file.js lines 77-88: write,
re-read, throw when the re-read differs, otherwise return the length.
`readBack` is what the re-read returns; `none` models the thrown
verification error. -/
def writeFileWithVerification (content readBack : Str) : Option Nat :=
  if readBack ≠ content then none else some readBack.length

/-- A fix as presented by the review loop (literal context; JSX fixes use a
different patch routine but the identical rejection, modification-check and
decision control flow). -/
structure LoopFix where
  line : Nat
  column : Nat
  original : Str
  escaped : Str
deriving DecidableEq

/-- The rejection-memory key of a fix.  The source serializes it as the
string `filePath:line:column:original` (createFixKey, index.js line 261);
for a single file this is the component tuple. -/
structure FixKey where
  line : Nat
  column : Nat
  original : Str
deriving DecidableEq

/-- Key of a loop fix. -/
def mkFixKey (f : LoopFix) : FixKey := ⟨f.line, f.column, f.original⟩

/-- A user response to the apply-fix prompt. -/
inductive Resp where
  | y
  | n
  | q
  | c
deriving DecidableEq

/-- One keystroke event together with the on-disk modification time
`fs.statSync` would report at that moment. -/
structure Ev where
  resp : Resp
  mtime : Nat
deriving DecidableEq

/-- Mutable state of processFile while reviewing one file. -/
structure RunState where
  fileLines : List Str
  changed : Bool
  rejected : List FixKey
  storedMtime : Option Nat
deriving DecidableEq

/-- checkFileModification from index.js lines 85-101: true (and the stored
time left unchanged) on a mismatch; otherwise false with the stored time
updated to the current one. -/
def checkModel (stored : Option Nat) (current : Nat) : Bool × Option Nat :=
  match stored with
  | some t => if t ≠ current then (true, some t) else (false, some current)
  | none => (false, some current)

/-- Result of handling one fix's prompt loop: the modelled keystrokes ran
out (the real program would block), the user quit (with any save that the
quit path performed), or control proceeds to the next fix. -/
inductive FixStep where
  | blocked (st : RunState)
  | quitRun (st : RunState) (writes : List Str)
  | next (st : RunState) (rest : List Ev)

/-- The inner `while (true)` of processFile (index.js lines 978-1168) for
one fix: show the prompt, read a key; `c` reprints context and loops; any
other key first re-checks the file modification time — a mismatch logs a
warning and breaks to the NEXT fix (the stored time is not updated);
then `q` saves pending changes and exits the run, `y` applies the literal
patch, and anything else records a rejection. -/
def promptLoop (fix : LoopFix) (st : RunState) : List Ev → FixStep
  | [] => .blocked st
  | e :: rest =>
    if e.resp = .c then promptLoop fix st rest
    else
      match checkModel st.storedMtime e.mtime with
      | (true, _) => .next st rest
      | (false, stored2) =>
        let st2 : RunState := { st with storedMtime := stored2 }
        match e.resp with
        | .q =>
          if st2.changed then
            .quitRun st2 [joinWith nlC st2.fileLines]
          else .quitRun st2 []
        | .y =>
          let r := applyLiteralFix st2.fileLines fix.line fix.column
            fix.original fix.escaped
          .next { st2 with fileLines := r.1, changed := st2.changed || r.2 } rest
        | _ =>
          .next { st2 with rejected := st2.rejected ++ [mkFixKey fix] } rest

/-- Observable outcome of processing one file's (sorted) fix list. -/
structure RunOutcome where
  state : RunState
  writes : List Str
  promptedKeys : List FixKey
  quitEarly : Bool
  blocked : Bool
deriving DecidableEq

/-- The per-file review loop of processFile (index.js lines 951-1194) over
an already-sorted fix list: skip fixes whose key is in rejection memory
without prompting (lines 967-970), otherwise prompt and run the inner loop;
after the list is exhausted perform the final save with its doubled-escape
guard (lines 1171-1194). -/
def runFixes : List LoopFix → List Ev → RunState → RunOutcome
  | [], _, st =>
    if st.changed then
      let content := joinWith nlC st.fileLines
      if strIncludes content dblLtE || strIncludes content dblGtE then
        ⟨st, [], [], false, false⟩
      else ⟨st, [content], [], false, false⟩
    else ⟨st, [], [], false, false⟩
  | f :: fs, evs, st =>
    if mkFixKey f ∈ st.rejected then runFixes fs evs st
    else
      match promptLoop f st evs with
      | .blocked st2 => ⟨st2, [], [mkFixKey f], false, true⟩
      | .quitRun st2 ws => ⟨st2, ws, [mkFixKey f], true, false⟩
      | .next st2 rest =>
        let out := runFixes fs rest st2
        { out with promptedKeys := mkFixKey f :: out.promptedKeys }

/-- The ascending document order on candidates: earlier line, or same line
and earlier column. -/
def ascLT (a b : FileCand) : Prop :=
  a.line < b.line ∨ (a.line = b.line ∧ a.col < b.col)

/-- Concrete text with an unescaped angle bracket and no quote characters. -/
def c1T : Str := ['a', '<', 'b']

/-- Concrete text with an unescaped apostrophe. -/
def c1wT : Str := ['h', 'i', aposC]

/-- The escaped form of `c1wT`. -/
def c1wR : Str := ['h', 'i'] ++ entApos

/-- Scenario A input: It's "fine". -/
def scenA : Str := ['I', 't', aposC, 's', ' ', quotC, 'f', 'i', 'n', 'e', quotC]

/-- Scenario A escaped output. -/
def scenAesc : Str :=
  ['I', 't'] ++ entApos ++ ['s', ' '] ++ entQuot ++ ['f', 'i', 'n', 'e'] ++ entQuot

/-- Scenario B input: an ampersand followed by filter=active. -/
def scenB : Str :=
  ['&', ' ', 'f', 'i', 'l', 't', 'e', 'r', '=', 'a', 'c', 't', 'i', 'v', 'e']

/-- What escapeString produces on Scenario B. -/
def scenBesc : Str :=
  entAmp ++ [' ', 'f', 'i', 'l', 't', 'e', 'r', '=', 'a', 'c', 't', 'i', 'v', 'e']

/-- Scenario C input: a markup text with an apostrophe and tags. -/
def scenC : Str :=
  ['D', 'o', 'n', aposC, 't', ' ', '<', 'b', '>', 's', 't', 'o', 'p',
   '<', '/', 'b', '>']

/-- Scenario C escaped output: only the apostrophe changes. -/
def scenCesc : Str :=
  ['D', 'o', 'n'] ++ entApos ++
  ['t', ' ', '<', 'b', '>', 's', 't', 'o', 'p', '<', '/', 'b', '>']

/-- A plain JS file path. -/
def c7path : Str := ['a', '.', 'j', 's']

/-- A candidate text whose only managed character is an ampersand. -/
def c9orig : Str := ['a', '&', 'b']

/-- A small two-line file. -/
def c9file : Str := ['x', nlC, 'y']

/-- First segment of the C4 witness file. -/
def c4seg1 : Seg := ⟨aposC, ['x', '&', 'y'], ['x'] ++ entAmp ++ ['y'], []⟩

/-- First line of the C4 witness file. -/
def c4ld1 : LineDesc := ⟨['a', ' ', '=', ' '], [c4seg1]⟩

/-- Second line's first segment. -/
def c4seg2a : Seg := ⟨aposC, ['p', '&', 'q'], ['p'] ++ entAmp ++ ['q'], [';', ' ']⟩

/-- Second line's second segment (a double-quoted literal). -/
def c4seg2b : Seg := ⟨quotC, ['r', '&', 's'], ['r'] ++ entAmp ++ ['s'], []⟩

/-- Second line of the C4 witness file. -/
def c4ld2 : LineDesc := ⟨['b', ' ', '=', ' '], [c4seg2a, c4seg2b]⟩

/-- The C4 witness file description: two lines, three candidates. -/
def c4fd : List LineDesc := [c4ld1, c4ld2]

/-- The C4 witness candidates in document order. -/
def c4cs : List FileCand := fileCandsFrom 1 c4fd

/-- Line 1 of the C5 counterexample file. -/
def c5lineA : Str := ['u', ' ', '=', ' ', aposC, 'c', '&', 'd', aposC]

/-- Line 2 of the C5 counterexample file. -/
def c5lineB : Str := ['v', ' ', '=', ' ', aposC, 'a', '&', 'b', aposC]

/-- Line 3 of the C5 counterexample file. -/
def c5lineC : Str := ['w', ' ', '=', ' ', aposC, 'e', '&', 'f', aposC]

/-- The candidate on line 1. -/
def c5fix1 : LoopFix := ⟨1, 4, ['c', '&', 'd'], ['c'] ++ entAmp ++ ['d']⟩

/-- The candidate on line 2. -/
def c5fix2 : LoopFix := ⟨2, 4, ['a', '&', 'b'], ['a'] ++ entAmp ++ ['b']⟩

/-- The candidate on line 3. -/
def c5fix3 : LoopFix := ⟨3, 4, ['e', '&', 'f'], ['e'] ++ entAmp ++ ['f']⟩

/-- Initial state of the C5 counterexample run (file opened at mtime 100). -/
def c5st : RunState := ⟨[c5lineA, c5lineB, c5lineC], false, [], some 100⟩

/-- C5 keystrokes: apply at mtime 100, then the file's mtime becomes 200
(external modification) before the remaining two apply decisions. -/
def c5evs : List Ev := [⟨.y, 100⟩, ⟨.y, 200⟩, ⟨.y, 200⟩]

/-- What the C5 counterexample run writes to disk: line 3 carries the patch
applied before the external modification. -/
def c5disk : Str :=
  c5lineA ++ nlC :: c5lineB ++ nlC ::
    (['w', ' ', '=', ' ', aposC, 'e'] ++ entAmp ++ ['f', aposC])

/-- A small fix used by the C5 witness. -/
def c5wfix : LoopFix := ⟨1, 0, [aposC], [aposC]⟩

/-- A state whose stored mtime is 5. -/
def c5wst : RunState := ⟨[['z']], false, [], some 5⟩

/-- An apply keystroke observed at mtime 6. -/
def c5wev : Ev := ⟨.y, 6⟩

/-- A changed state ready for the final save. -/
def c5wst2 : RunState := ⟨[['z']], true, [], some 5⟩

/-- A one-line file for C6. -/
def c6lines : List Str := [['o', 'k']]

/-- The joined content of `c6lines`. -/
def c6content : Str := ['o', 'k']

/-- A divergent read-back for C6. -/
def c6bad : Str := ['X']

/-- A file whose joined content contains the doubled escape of a left
angle bracket. -/
def c6corrupt : List Str := [dblLtE]

/-- Original text of the C8 fix. -/
def c8orig : Str := ['a', '&', 'b']

/-- The C8 fix. -/
def c8fix : LoopFix := ⟨1, 0, c8orig, ['z']⟩

/-- Its rejection-memory key. -/
def c8key : FixKey := ⟨1, 0, c8orig⟩

/-- A state whose rejection memory already holds `c8key`. -/
def c8st : RunState := ⟨[['q']], false, [c8key], some 1⟩

/-- A line with a single-quoted literal at column 1. -/
def c10line : Str := ['v', aposC, 'a', '&', 'b', aposC, 'w']

/-- A one-line file around `c10line`. -/
def c10lines : List Str := [c10line]

/-- The escaped text for the C10 literal. -/
def c10esc : Str := ['a'] ++ entAmp ++ ['b']

theorem charMapCat_append (f : Char → Str) (a b : Str) :
    charMapCat f (a ++ b) = charMapCat f a ++ charMapCat f b := by
  induction a with
  | nil => rfl
  | cons c cs ih => simp [charMapCat, ih]

theorem charMapCat_ne_split (f : Char → Str) :
    ∀ T : Str, charMapCat f T ≠ T → ∃ p c s, T = p ++ c :: s ∧ f c ≠ [c] := by
  intro T
  induction T with
  | nil => intro h; exact absurd rfl h
  | cons c cs ih =>
    intro h
    by_cases hc : f c = [c]
    · have h2 : charMapCat f cs ≠ cs := by
        intro he
        exact h (by simp [charMapCat, hc, he])
      obtain ⟨p, c2, s, hps, hfc⟩ := ih h2
      exact ⟨c :: p, c2, s, by simp [hps], hfc⟩
    · exact ⟨[], c, cs, rfl, hc⟩

theorem isPre_append_self (m z : Str) : isPre m (m ++ z) = true := by
  induction m with
  | nil => rfl
  | cons a as ih => simp [isPre, ih]

theorem subIdx_of_isPre (m s : Str) (h : isPre m s = true) : subIdx m s = some 0 := by
  cases s with
  | nil => simp [subIdx, h]
  | cons c rest => simp [subIdx, h]

theorem subIdx_mid_isSome (m : Str) :
    ∀ A B : Str, (subIdx m (A ++ m ++ B)).isSome = true := by
  intro A
  induction A with
  | nil =>
    intro B
    simp only [List.nil_append]
    rw [subIdx_of_isPre m (m ++ B) (isPre_append_self m B)]
    rfl
  | cons a A ih =>
    intro B
    show (subIdx m (a :: (A ++ m ++ B))).isSome = true
    rw [subIdx]
    split
    · rfl
    · have h := ih B
      cases hs : subIdx m (A ++ m ++ B) with
      | none => rw [hs] at h; simp at h
      | some n => rfl

theorem strIncludes_mid (A m B : Str) : strIncludes (A ++ m ++ B) m = true := by
  unfold strIncludes
  exact subIdx_mid_isSome m A B

theorem containsEntities_of_managed (c : Char)
    (hc : c = quotC ∨ c = aposC ∨ c = '&' ∨ c = '<' ∨ c = '>')
    (A B : Str) : containsHtmlEntities (A ++ ESCAPES c ++ B) = true := by
  unfold containsHtmlEntities
  rcases hc with h | h | h | h | h <;> subst h
  · have he : ESCAPES quotC = entQuot := by decide
    rw [he, strIncludes_mid A entQuot B]
    simp
  · have he : ESCAPES aposC = entApos := by decide
    rw [he, strIncludes_mid A entApos B]
    simp
  · have he : ESCAPES '&' = entAmp := by decide
    rw [he, strIncludes_mid A entAmp B]
    simp
  · have he : ESCAPES '<' = entLt := by decide
    rw [he, strIncludes_mid A entLt B]
    simp
  · have he : ESCAPES '>' = entGt := by decide
    rw [he, strIncludes_mid A entGt B]
    simp

theorem escQAChar_ne (c : Char) (h : escQAChar c ≠ [c]) :
    (c = quotC ∨ c = aposC) ∧ escQAChar c = ESCAPES c := by
  unfold escQAChar at *
  by_cases hm : c = quotC ∨ c = aposC
  · exact ⟨hm, by simp [hm]⟩
  · exact absurd (by simp [hm]) h

theorem escAllChar_ne (c : Char) (h : escAllChar c ≠ [c]) :
    isManagedChar c = true ∧ escAllChar c = ESCAPES c := by
  unfold escAllChar at *
  by_cases hm : isManagedChar c = true
  · exact ⟨hm, by simp [hm]⟩
  · exact absurd (by simp [hm]) h

theorem isManaged_or (c : Char) (h : isManagedChar c = true) :
    c = quotC ∨ c = aposC ∨ c = '&' ∨ c = '<' ∨ c = '>' := by
  unfold isManagedChar at h
  exact of_decide_eq_true h

theorem escapeOutcome_entities (strict : Bool) (T r : Str) (chars : List Char)
    (h : escapeString strict T = .outcome r chars) (hne : r ≠ T) :
    containsHtmlEntities r = true := by
  unfold escapeString at h
  split_ifs at h with h1 h2 h3
  · injection h with h4 h5
    rw [← h4] at hne ⊢
    obtain ⟨p, c, s, hT, hfc⟩ := charMapCat_ne_split escQAChar T hne
    obtain ⟨hc2, hesc⟩ := escQAChar_ne c hfc
    have hc5 : c = quotC ∨ c = aposC ∨ c = '&' ∨ c = '<' ∨ c = '>' := by
      rcases hc2 with h | h
      · exact Or.inl h
      · exact Or.inr (Or.inl h)
    have hr : charMapCat escQAChar T =
        charMapCat escQAChar p ++ ESCAPES c ++ charMapCat escQAChar s := by
      rw [hT, charMapCat_append]
      simp [charMapCat, hesc]
    rw [hr]
    exact containsEntities_of_managed c hc5 _ _
  · injection h with h4 h5
    rw [← h4] at hne ⊢
    obtain ⟨p, c, s, hT, hfc⟩ := charMapCat_ne_split escAllChar T hne
    obtain ⟨hc2, hesc⟩ := escAllChar_ne c hfc
    have hr : charMapCat escAllChar T =
        charMapCat escAllChar p ++ ESCAPES c ++ charMapCat escAllChar s := by
      rw [hT, charMapCat_append]
      simp [charMapCat, hesc]
    rw [hr]
    exact containsEntities_of_managed c (isManaged_or c hc2) _ _

/-- C1 (amended): whenever the Escape Policy Engine returns an escape
outcome whose text differs from the input (at least one character was
actually escaped), feeding the escaped text back into the engine yields
the no-escaping sentinel, because the escaped text contains a recognized
entity form; the engine never double-escapes text it changed. -/
theorem C1_noDoubleEscape (strict : Bool) (T r : Str) (chars : List Char)
    (h : escapeString strict T = .outcome r chars) (hne : r ≠ T) :
    escapeString strict r = .noEscape := by
  have hent := escapeOutcome_entities strict T r chars h hne
  cases hse : shouldExcludeFromEscaping strict r with
  | true => simp [escapeString, hse]
  | false => simp [escapeString, hse, hent]

/-- C1 counterexample: the text a&lt;b — written here unescaped as the list
`['a', '<', 'b']` — contains an unescaped managed character, yet feeding
the engine's output back in does not report the no-escaping sentinel: the
angle-bracket path changed nothing, so the second call returns a fresh
escape outcome (with an unchanged result) instead of the sentinel. -/
theorem C1_counterexample :
    hasC '<' c1T = true ∧ containsHtmlEntities c1T = false ∧
    shouldExcludeFromEscaping false c1T = false ∧
    escapeString false c1T = .outcome c1T [] ∧
    escapeString false (escapedTextOf c1T (escapeString false c1T)) ≠
      .noEscape := by decide

/-- C1 witness: a concrete text with an apostrophe is escaped, its result
differs from the input, and re-deciding the result yields the sentinel. -/
theorem C1_witness :
    (escapeString false c1wT = .outcome c1wR [aposC] ∧ c1wR ≠ c1wT) ∧
    escapeString false c1wR = .noEscape :=
  ⟨by decide, C1_noDoubleEscape false c1wT c1wR [aposC] (by decide) (by decide)⟩

theorem countC_append (c : Char) (a b : Str) :
    countC c (a ++ b) = countC c a + countC c b := by
  induction a with
  | nil => simp [countC]
  | cons x xs ih =>
    simp [countC, ih]
    omega

theorem countC_charMapCat (d : Char) (f : Char → Str)
    (hf : ∀ c, countC d (f c) = countC d [c]) :
    ∀ T, countC d (charMapCat f T) = countC d T := by
  intro T
  induction T with
  | nil => rfl
  | cons c cs ih =>
    show countC d (f c ++ charMapCat f cs) = countC d (c :: cs)
    rw [countC_append, hf c, ih]
    simp [countC]

theorem countC_charMapCat_zero (d : Char) (f : Char → Str)
    (hf : ∀ c, countC d (f c) = 0) :
    ∀ T, countC d (charMapCat f T) = 0 := by
  intro T
  induction T with
  | nil => rfl
  | cons c cs ih =>
    show countC d (f c ++ charMapCat f cs) = 0
    rw [countC_append, hf c, ih]

theorem countC_escQA_lt (c : Char) : countC '<' (escQAChar c) = countC '<' [c] := by
  by_cases h : c = quotC ∨ c = aposC
  · rcases h with h | h <;> subst h <;> decide
  · simp [escQAChar, h]

theorem countC_escQA_gt (c : Char) : countC '>' (escQAChar c) = countC '>' [c] := by
  by_cases h : c = quotC ∨ c = aposC
  · rcases h with h | h <;> subst h <;> decide
  · simp [escQAChar, h]

theorem countC_escQA_quot (c : Char) : countC quotC (escQAChar c) = 0 := by
  by_cases h : c = quotC ∨ c = aposC
  · rcases h with h | h <;> subst h <;> decide
  · have hq : ¬ c = quotC := fun he => h (Or.inl he)
    have ha : ¬ c = aposC := fun he => h (Or.inr he)
    simp [escQAChar, h, countC, hq, ha]

theorem countC_escQA_apos (c : Char) : countC aposC (escQAChar c) = 0 := by
  by_cases h : c = quotC ∨ c = aposC
  · rcases h with h | h <;> subst h <;> decide
  · have hq : ¬ c = quotC := fun he => h (Or.inl he)
    have ha : ¬ c = aposC := fun he => h (Or.inr he)
    simp [escQAChar, h, countC, hq, ha]

/-- C2: when the text contains an angle bracket, the engine's escaped output
is the input with each quote and apostrophe expanded to its entity and every
other character (angle brackets and ampersands included) carried over
unchanged; in particular the counts of angle brackets are preserved and the
quote/apostrophe counts drop to zero. -/
theorem C2_markupProtection (strict : Bool) (T r : Str) (chars : List Char)
    (h : escapeString strict T = .outcome r chars)
    (hangle : hasC '<' T = true ∨ hasC '>' T = true) :
    r = charMapCat escQAChar T ∧
    chars = jsDedup (T.filter (fun c => decide (c = quotC ∨ c = aposC))) ∧
    countC '<' r = countC '<' T ∧
    countC '>' r = countC '>' T ∧
    countC quotC r = 0 ∧
    countC aposC r = 0 := by
  have hb : (hasC '<' T || hasC '>' T) = true := by
    rcases hangle with h1 | h1 <;> simp [h1]
  unfold escapeString at h
  split_ifs at h with h1 h2
  injection h with h4 h5
  rw [← h4, ← h5]
  exact ⟨rfl, rfl,
    countC_charMapCat '<' escQAChar countC_escQA_lt T,
    countC_charMapCat '>' escQAChar countC_escQA_gt T,
    countC_charMapCat_zero quotC escQAChar countC_escQA_quot T,
    countC_charMapCat_zero aposC escQAChar countC_escQA_apos T⟩

/-- C2 witness at Scenario C. -/
theorem C2_witness :
    (escapeString false scenC = .outcome scenCesc [aposC] ∧
      hasC '<' scenC = true) ∧
    (scenCesc = charMapCat escQAChar scenC ∧
     [aposC] = jsDedup (scenC.filter (fun c => decide (c = quotC ∨ c = aposC))) ∧
     countC '<' scenCesc = countC '<' scenC ∧
     countC '>' scenCesc = countC '>' scenC ∧
     countC quotC scenCesc = 0 ∧
     countC aposC scenCesc = 0) :=
  ⟨by decide,
   C2_markupProtection false scenC scenCesc [aposC] (by decide)
     (Or.inl (by decide))⟩

theorem escapesInj (a c : Char) (ha : isManagedChar a = true)
    (hc : isManagedChar c = true) : ESCAPES a = ESCAPES c ↔ a = c := by
  rcases isManaged_or a ha with h | h | h | h | h <;> subst h <;>
    rcases isManaged_or c hc with h | h | h | h | h <;> subst h <;> decide

theorem countToks_managed (c : Char) (hc : isManagedChar c = true) :
    ∀ T : Str,
      countC c T = countToks (ESCAPES c) ((T.filter isManagedChar).map ESCAPES) := by
  intro T
  induction T with
  | nil => rfl
  | cons x xs ih =>
    by_cases hm : isManagedChar x = true
    · by_cases hxc : x = c
      · subst hxc
        simp [countC, List.filter_cons, hm, countToks, ih]
      · have hne : ¬ ESCAPES x = ESCAPES c :=
          fun he => hxc ((escapesInj x c hm hc).mp he)
        simp [countC, List.filter_cons, hm, countToks, hxc, hne, ih]
    · have hxc : ¬ x = c := by
        intro he
        rw [he] at hm
        exact hm hc
      simp [countC, List.filter_cons, hm, hxc, ih]

/-- C3: when the text contains no angle bracket, the engine's escape outcome
is the input with every occurrence of a managed character replaced by its
entity; the count of each managed character equals the count of its entity
token in the inserted-token list, and Scenario A's concrete input escapes
exactly as the spec states, with the changed-character set recording the
apostrophe and the quote once each. -/
theorem C3_characterFidelity :
    (∀ (strict : Bool) (T r : Str) (chars : List Char),
      escapeString strict T = .outcome r chars →
      hasC '<' T = false → hasC '>' T = false →
      r = charMapCat escAllChar T ∧
      chars = jsDedup (T.filter isManagedChar) ∧
      (∀ c : Char, isManagedChar c = true →
        countC c T = countToks (ESCAPES c) ((T.filter isManagedChar).map ESCAPES))) ∧
    escapeString false scenA = .outcome scenAesc [aposC, quotC] := by
  constructor
  · intro strict T r chars h hlt hgt
    unfold escapeString at h
    split_ifs at h with h1 h2 h3
    · rw [hlt, hgt] at h3
      simp at h3
    · injection h with h4 h5
      exact ⟨h4.symm, h5.symm, fun c hc => countToks_managed c hc T⟩
  · decide

/-- C3 witness at Scenario A. -/
theorem C3_witness :
    (escapeString false scenA = .outcome scenAesc [aposC, quotC] ∧
      hasC '<' scenA = false ∧ hasC '>' scenA = false) ∧
    (scenAesc = charMapCat escAllChar scenA ∧
     [aposC, quotC] = jsDedup (scenA.filter isManagedChar) ∧
     (∀ c : Char, isManagedChar c = true →
       countC c scenA =
         countToks (ESCAPES c) ((scenA.filter isManagedChar).map ESCAPES))) :=
  ⟨by decide,
   C3_characterFidelity.1 false scenA scenAesc [aposC, quotC] (by decide)
     (by decide) (by decide)⟩

/-- C7 counterexample: on the Scenario B input the Escape Policy Engine does
not return the no-escaping sentinel — none of escapeString's exclusions
match, and the engine escapes the ampersand. -/
theorem C7_counterexample :
    escapeString false scenB ≠ .noEscape ∧
    shouldExcludeFromEscaping false scenB = false ∧
    escapeString false scenB = .outcome scenBesc ['&'] := by decide

/-- C7 (amended): the Scenario B input is indeed excluded rather than
escaped, but by the auto-skip pass that runs after escapeString, and the
first matching auto-skip rule is the CSS-selector pattern (starts with an
ampersand and contains a space), which shadows the query-parameter rule
whose condition (ampersand plus a filter substring) also holds. -/
theorem C7_autoSkip :
    isAutoSkipPattern false scenB c7path 1 0 = some .cssSelector ∧
    hasC '&' scenB = true ∧ strIncludes scenB filterS = true ∧
    escapeString false scenB = .outcome scenBesc ['&'] := by decide

/-- C9: the window-based idempotency detector returns its early no-match
result on any original that contains neither an apostrophe nor a double
quote, whatever the file content and line number; such a candidate is never
reported as already escaped at any confidence. -/
theorem C9_windowNeedsQuotes (fileContent : Str) (lineNumber : Nat)
    (originalString : Str) (h1 : hasC aposC originalString = false)
    (h2 : hasC quotC originalString = false) :
    isAlreadyEscapedInLineWindow fileContent lineNumber originalString =
      .rawFalse ∧
    (isAlreadyEscapedInLineWindow fileContent lineNumber
      originalString).isMatched = false := by
  have he : isAlreadyEscapedInLineWindow fileContent lineNumber
      originalString = .rawFalse := by
    unfold isAlreadyEscapedInLineWindow
    rw [h1, h2]
    rfl
  exact ⟨he, by rw [he]; rfl⟩

/-- C9 witness on a concrete ampersand-only candidate. -/
theorem C9_witness :
    (hasC aposC c9orig = false ∧ hasC quotC c9orig = false) ∧
    (isAlreadyEscapedInLineWindow c9file 1 c9orig = .rawFalse ∧
     (isAlreadyEscapedInLineWindow c9file 1 c9orig).isMatched = false) :=
  ⟨by decide, C9_windowNeedsQuotes c9file 1 c9orig (by decide) (by decide)⟩

theorem get_append_len {α : Type} (p : List α) (x : α) (s : List α) :
    (p ++ x :: s)[p.length]? = some x := by
  induction p with
  | nil => simp
  | cons a t ih => simpa using ih

theorem set_append_len {α : Type} (p : List α) (x y : α) (s : List α) :
    (p ++ x :: s).set p.length y = p ++ y :: s := by
  induction p with
  | nil => rfl
  | cons a t ih => simp [List.set, ih]

theorem drop_append_len {α : Type} (p r : List α) : (p ++ r).drop p.length = r := by
  induction p with
  | nil => rfl
  | cons a t ih => simpa using ih

theorem take_append_len {α : Type} (p r : List α) : (p ++ r).take p.length = p := by
  induction p with
  | nil => rfl
  | cons a t ih => simp [ih]

theorem get_set_ne {α : Type} :
    ∀ (xs : List α) (i j : Nat) (y : α), i ≠ j → (xs.set i y)[j]? = xs[j]? := by
  intro xs
  induction xs with
  | nil => intro i j y _; simp
  | cons a t ih =>
    intro i j y h
    cases i with
    | zero =>
      cases j with
      | zero => exact absurd rfl h
      | succ j2 => simp [List.set]
    | succ i2 =>
      cases j with
      | zero => simp [List.set]
      | succ j2 =>
        have h2 : i2 ≠ j2 := fun he => h (by rw [he])
        simp [List.set, ih i2 j2 y h2]

theorem set_self_of_get {α : Type} :
    ∀ (xs : List α) (i : Nat) (x : α), xs[i]? = some x → xs.set i x = xs := by
  intro xs
  induction xs with
  | nil => intro i x h; simp at h
  | cons a t ih =>
    intro i x h
    cases i with
    | zero =>
      simp at h
      rw [h]
      rfl
    | succ i2 =>
      simp at h
      simp [List.set, ih i2 x h]

theorem subIdx_single (q : Char) :
    ∀ o z : Str, q ∉ o → subIdx [q] (o ++ q :: z) = some o.length := by
  intro o
  induction o with
  | nil =>
    intro z _
    have hp : isPre [q] (q :: z) = true := by simp [isPre]
    simp [subIdx, hp]
  | cons a as ih =>
    intro z h
    simp only [List.mem_cons, not_or] at h
    have hqa : ¬ q = a := h.1
    have hpre : isPre [q] (a :: (as ++ q :: z)) = false := by simp [isPre, hqa]
    show subIdx [q] (a :: (as ++ q :: z)) = some (as.length + 1)
    rw [subIdx, hpre]
    simp [ih z h.2]

theorem patchOne_seg (P : Str) (q : Char) (o e Z : Str)
    (ho : o ≠ []) (hq : q ∉ o) :
    patchOne (P ++ q :: (o ++ q :: Z)) P.length o e =
      (P ++ q :: (e ++ q :: Z), true) := by
  have hget : (P ++ q :: (o ++ q :: Z))[P.length]? = some q := get_append_len P q _
  have hsplit1 : P ++ q :: (o ++ q :: Z) = (P ++ [q]) ++ (o ++ q :: Z) := by simp
  have hdrop : (P ++ q :: (o ++ q :: Z)).drop (P.length + 1) = o ++ q :: Z := by
    rw [hsplit1]
    have hl : P.length + 1 = (P ++ [q]).length := by simp
    rw [hl]
    exact drop_append_len _ _
  have hidx : idxOfStrFrom (P ++ q :: (o ++ q :: Z)) [q] (P.length + 1) =
      some (o.length + (P.length + 1)) := by
    unfold idxOfStrFrom
    rw [hdrop, subIdx_single q o Z hq]
    rfl
  have harith : P.length + 1 < o.length + (P.length + 1) := by
    have := List.length_pos.mpr ho
    omega
  have htake : (P ++ q :: (o ++ q :: Z)).take (P.length + 1) = P ++ [q] := by
    rw [hsplit1]
    have hl : P.length + 1 = (P ++ [q]).length := by simp
    rw [hl]
    exact take_append_len _ _
  have hdrop2 : (P ++ q :: (o ++ q :: Z)).drop (o.length + (P.length + 1)) =
      q :: Z := by
    have hsplit2 : P ++ q :: (o ++ q :: Z) = ((P ++ [q]) ++ o) ++ (q :: Z) := by
      simp
    rw [hsplit2]
    have hl : o.length + (P.length + 1) = ((P ++ [q]) ++ o).length := by
      simp
      omega
    rw [hl]
    exact drop_append_len _ _
  have hcontent : ((P ++ q :: (o ++ q :: Z)).drop (P.length + 1)).take
      (o.length + (P.length + 1) - (P.length + 1)) = o := by
    rw [hdrop, Nat.add_sub_cancel]
    exact take_append_len o (q :: Z)
  unfold patchOne
  rw [hget]
  simp only [hidx, if_pos harith, hcontent, if_pos rfl, htake, hdrop2]
  simp

theorem ascCands_mem (ln : Nat) :
    ∀ (segs : List Seg) (n : Nat) (c : FileCand),
      c ∈ ascCands ln n segs → c.line = ln ∧ n ≤ c.col := by
  intro segs
  induction segs with
  | nil => intro n c h; simp [ascCands] at h
  | cons s rest ih =>
    intro n c h
    simp only [ascCands, List.mem_cons] at h
    rcases h with h | h
    · rw [h]
      exact ⟨rfl, Nat.le_refl n⟩
    · have := ih (n + (segOrigText s).length) c h
      exact ⟨this.1, by omega⟩

theorem lineFold_escapes (ln : Nat) :
    ∀ (segs : List Seg) (pre tail : Str),
      (∀ s ∈ segs, segOk s) →
      List.foldr (fun c tl => (patchOne tl c.col c.orig c.esc).1)
        (pre ++ flatCat segOrigText segs ++ tail) (ascCands ln pre.length segs) =
      pre ++ flatCat segEscText segs ++ tail := by
  intro segs
  induction segs with
  | nil => intro pre tail _; rfl
  | cons s rest ih =>
    intro pre tail hok
    have hsOk : segOk s := hok s (List.mem_cons_self s rest)
    have hrest : ∀ t ∈ rest, segOk t := fun t ht => hok t (List.mem_cons_of_mem s ht)
    show (patchOne
        (List.foldr (fun c tl => (patchOne tl c.col c.orig c.esc).1)
          (pre ++ flatCat segOrigText (s :: rest) ++ tail)
          (ascCands ln (pre.length + (segOrigText s).length) rest))
        pre.length s.orig s.esc).1 =
      pre ++ flatCat segEscText (s :: rest) ++ tail
    have hinit : pre ++ flatCat segOrigText (s :: rest) ++ tail =
        (pre ++ segOrigText s) ++ flatCat segOrigText rest ++ tail := by
      simp [flatCat]
    have hlen : pre.length + (segOrigText s).length = (pre ++ segOrigText s).length := by
      simp
    rw [hinit, hlen, ih (pre ++ segOrigText s) tail hrest]
    have hassoc : (pre ++ segOrigText s) ++ flatCat segEscText rest ++ tail =
        pre ++ s.q :: (s.orig ++ s.q :: (s.post ++ (flatCat segEscText rest ++ tail))) := by
      simp [segOrigText]
    rw [hassoc, patchOne_seg pre s.q s.orig s.esc _ hsOk.1 hsOk.2]
    simp [flatCat, segEscText]

theorem applyLiteralFix_succ (lines : List Str) (l col : Nat) (o e : Str) :
    applyLiteralFix lines (l + 1) col o e =
      (match lines[l]? with
       | none => (lines, false)
       | some t => (lines.set l (patchOne t col o e).1, (patchOne t col o e).2)) :=
  rfl

theorem sameLineFold (pfx : List Str) (t : Str) (suf : List Str) :
    ∀ cands : List FileCand,
      (∀ c ∈ cands, c.line = pfx.length + 1) →
      List.foldr (fun c st => (applyLiteralFix st c.line c.col c.orig c.esc).1)
        (pfx ++ t :: suf) cands =
      pfx ++ (List.foldr (fun c tl => (patchOne tl c.col c.orig c.esc).1) t cands)
        :: suf := by
  intro cands
  induction cands with
  | nil => intro _; rfl
  | cons c cs ih =>
    intro hline
    have hc : c.line = pfx.length + 1 := hline c (List.mem_cons_self c cs)
    have hcs : ∀ d ∈ cs, d.line = pfx.length + 1 :=
      fun d hd => hline d (List.mem_cons_of_mem c hd)
    show (applyLiteralFix
        (List.foldr (fun c st => (applyLiteralFix st c.line c.col c.orig c.esc).1)
          (pfx ++ t :: suf) cs) c.line c.col c.orig c.esc).1 = _
    rw [ih hcs, hc]
    simp only [applyLiteralFix_succ, get_append_len, set_append_len, List.foldr_cons]

theorem fileFold_escapes :
    ∀ (FD : List LineDesc) (pfx : List Str) (ln : Nat),
      ln = pfx.length + 1 → descOk FD →
      List.foldr (fun c st => (applyLiteralFix st c.line c.col c.orig c.esc).1)
        (pfx ++ FD.map buildLine) (fileCandsFrom ln FD) =
      pfx ++ FD.map buildEscLine := by
  intro FD
  induction FD with
  | nil => intro pfx ln _ _; rfl
  | cons d rest ih =>
    intro pfx ln hln hok
    have hdOk : ∀ s ∈ d.segs, segOk s := hok d (List.mem_cons_self d rest)
    have hrestOk : descOk rest := fun e he s hs => hok e (List.mem_cons_of_mem d he) s hs
    show List.foldr _ (pfx ++ (buildLine d :: rest.map buildLine))
        (ascCands ln d.pre.length d.segs ++ fileCandsFrom (ln + 1) rest) = _
    rw [List.foldr_append]
    have hmid : pfx ++ (buildLine d :: rest.map buildLine) =
        (pfx ++ [buildLine d]) ++ rest.map buildLine := by simp
    have hln2 : ln + 1 = (pfx ++ [buildLine d]).length + 1 := by simp [hln]
    rw [hmid, ih (pfx ++ [buildLine d]) (ln + 1) hln2 hrestOk]
    have hmid2 : (pfx ++ [buildLine d]) ++ rest.map buildEscLine =
        pfx ++ buildLine d :: rest.map buildEscLine := by simp
    rw [hmid2]
    have hlines : ∀ c ∈ ascCands ln d.pre.length d.segs, c.line = pfx.length + 1 := by
      intro c hc
      rw [← hln]
      exact (ascCands_mem ln d.segs d.pre.length c hc).1
    rw [sameLineFold pfx (buildLine d) (rest.map buildEscLine) _ hlines]
    have hbuild : buildLine d = d.pre ++ flatCat segOrigText d.segs ++ [] := by
      simp [buildLine]
    rw [hbuild, lineFold_escapes ln d.segs d.pre [] hdOk]
    simp [buildEscLine]

theorem ascCands_pairwise (ln : Nat) :
    ∀ (segs : List Seg) (n : Nat), List.Pairwise ascLT (ascCands ln n segs) := by
  intro segs
  induction segs with
  | nil => intro n; simp [ascCands]
  | cons s rest ih =>
    intro n
    simp only [ascCands]
    constructor
    · intro b hb
      have hmem := ascCands_mem ln rest (n + (segOrigText s).length) b hb
      have hlen : 2 ≤ (segOrigText s).length := by
        simp only [segOrigText, List.length_cons, List.length_append]
        omega
      unfold ascLT
      right
      refine ⟨hmem.1.symm, ?_⟩
      show n < b.col
      omega
    · exact ih (n + (segOrigText s).length)

theorem fileCands_line_ge :
    ∀ (FD : List LineDesc) (ln : Nat) (c : FileCand),
      c ∈ fileCandsFrom ln FD → ln ≤ c.line := by
  intro FD
  induction FD with
  | nil => intro ln c h; simp [fileCandsFrom] at h
  | cons d rest ih =>
    intro ln c h
    simp only [fileCandsFrom, List.mem_append] at h
    rcases h with h | h
    · rw [(ascCands_mem ln d.segs d.pre.length c h).1]
    · have := ih (ln + 1) c h
      omega

theorem fileCands_pairwise :
    ∀ (FD : List LineDesc) (ln : Nat), List.Pairwise ascLT (fileCandsFrom ln FD) := by
  intro FD
  induction FD with
  | nil => intro ln; simp [fileCandsFrom]
  | cons d rest ih =>
    intro ln
    simp only [fileCandsFrom]
    rw [List.pairwise_append]
    refine ⟨ascCands_pairwise ln d.segs d.pre.length, ih (ln + 1), ?_⟩
    intro a ha b hb
    have ha2 := (ascCands_mem ln d.segs d.pre.length a ha).1
    have hb2 := fileCands_line_ge rest (ln + 1) b hb
    left
    omega

theorem fixLE_antisymm_key (a b : FileCand) (h1 : fixLE a b) (h2 : fixLE b a) :
    keyLC a = keyLC b := by
  unfold fixLE at h1 h2
  unfold keyLC
  have hl : a.line = b.line := by omega
  have hc : a.col = b.col := by omega
  rw [hl, hc]

theorem sortedPermNodupEq :
    ∀ l1 l2 : List FileCand, l1.Perm l2 → l1.Pairwise fixLE →
      l2.Pairwise fixLE → (l2.map keyLC).Nodup → l1 = l2 := by
  intro l1
  induction l1 with
  | nil =>
    intro l2 hp _ _ _
    exact (hp.symm.eq_nil).symm
  | cons a t1 ih =>
    intro l2 hp hs1 hs2 hnd
    cases l2 with
    | nil => exact absurd hp.eq_nil (by simp)
    | cons b t2 =>
      by_cases hab : a = b
      · subst hab
        have hp2 : t1.Perm t2 := hp.cons_inv
        have h1 := List.pairwise_cons.mp hs1
        have h2 := List.pairwise_cons.mp hs2
        have hnd2 : (t2.map keyLC).Nodup := by
          simp only [List.map_cons, List.nodup_cons] at hnd
          exact hnd.2
        rw [ih t2 hp2 h1.2 h2.2 hnd2]
      · have hain : a ∈ b :: t2 := hp.subset (List.mem_cons_self a t1)
        have hat2 : a ∈ t2 := by
          rcases List.mem_cons.mp hain with h | h
          · exact absurd h hab
          · exact h
        have hbin : b ∈ a :: t1 := hp.symm.subset (List.mem_cons_self b t2)
        have hbt1 : b ∈ t1 := by
          rcases List.mem_cons.mp hbin with h | h
          · exact absurd h.symm hab
          · exact h
        have h1 : fixLE a b := (List.pairwise_cons.mp hs1).1 b hbt1
        have h2 : fixLE b a := (List.pairwise_cons.mp hs2).1 a hat2
        have hk := fixLE_antisymm_key a b h1 h2
        simp only [List.map_cons, List.nodup_cons] at hnd
        exact absurd (hk ▸ List.mem_map_of_mem keyLC hat2) hnd.1

/-- C4: the candidate sort of processFile orders candidates by descending
line then descending column, and applying every candidate's literal patch
in that order to a file in which the candidates are genuine string-literal
spans rewrites exactly each span to its escaped text: the resulting file is
the original with every literal content replaced, every other byte intact,
and no earlier-in-file span is invalidated by a later-in-file edit. -/
theorem C4_positionSafety (FD : List LineDesc) (cs : List FileCand)
    (hok : descOk FD) (hperm : cs.Perm (fileCandsFrom 1 FD)) :
    List.Pairwise fixLE (sortFixes cs) ∧
    List.foldl patchStep (FD.map buildLine) (sortFixes cs) =
      FD.map buildEscLine := by
  have hsorted : List.Pairwise fixLE (sortFixes cs) :=
    List.sorted_insertionSort fixLE cs
  refine ⟨hsorted, ?_⟩
  have hasc := fileCands_pairwise FD 1
  have hcanon : sortFixes cs = (fileCandsFrom 1 FD).reverse := by
    apply sortedPermNodupEq
    · exact (List.perm_insertionSort fixLE cs).trans
        (hperm.trans (fileCandsFrom 1 FD).reverse_perm.symm)
    · exact hsorted
    · rw [List.pairwise_reverse]
      exact hasc.imp (fun hab => by unfold ascLT at hab; unfold fixLE; omega)
    · rw [List.map_reverse, List.nodup_reverse]
      have hkey : List.Pairwise (fun a b : FileCand => keyLC a ≠ keyLC b)
          (fileCandsFrom 1 FD) := by
        refine hasc.imp ?_
        intro a b hab he
        unfold keyLC at he
        have h1 : a.line = b.line := congrArg Prod.fst he
        have h2 : a.col = b.col := congrArg Prod.snd he
        unfold ascLT at hab
        omega
      show List.Pairwise (fun a b => a ≠ b)
        (List.map keyLC (fileCandsFrom 1 FD))
      rw [List.pairwise_map]
      exact hkey
  rw [hcanon]
  rw [List.foldl_reverse]
  have := fileFold_escapes FD [] 1 (by simp) hok
  simpa [patchStep] using this

/-- C4 witness: a two-line file with three literal candidates, handed to the
sort in document order. -/
theorem C4_witness :
    (descOk c4fd ∧ c4cs.Perm (fileCandsFrom 1 c4fd)) ∧
    (List.Pairwise fixLE (sortFixes c4cs) ∧
     List.foldl patchStep (c4fd.map buildLine) (sortFixes c4cs) =
       c4fd.map buildEscLine) :=
  ⟨⟨by decide, by decide⟩, C4_positionSafety c4fd c4cs (by decide) (by decide)⟩

theorem patchOne_span (t : Str) (column : Nat) (orig esc : Str) :
    patchOne t column orig esc =
      (match literalSpanAt t column with
       | none => (t, false)
       | some (p, content) =>
         if content = orig then
           (t.take (column + 1) ++ esc ++ t.drop p, true)
         else (t, false)) := by
  cases hq : t[column]? with
  | none =>
    have h1 : patchOne t column orig esc = (t, false) := by
      unfold patchOne
      rw [hq]
    have h2 : literalSpanAt t column = none := by
      unfold literalSpanAt
      rw [hq]
    rw [h1, h2]
  | some q =>
    have hP : patchOne t column orig esc =
        (match idxOfStrFrom t [q] (column + 1) with
         | none => (t, false)
         | some p =>
           if column + 1 < p then
             if (t.drop (column + 1)).take (p - (column + 1)) = orig then
               (t.take (column + 1) ++ esc ++ t.drop p, true)
             else (t, false)
           else (t, false)) := by
      unfold patchOne
      rw [hq]
    have hS : literalSpanAt t column =
        (match idxOfStrFrom t [q] (column + 1) with
         | none => none
         | some p =>
           if column + 1 < p then
             some (p, (t.drop (column + 1)).take (p - (column + 1)))
           else none) := by
      unfold literalSpanAt
      rw [hq]
    rw [hP, hS]
    cases hi : idxOfStrFrom t [q] (column + 1) with
    | none => rfl
    | some p =>
      show (if column + 1 < p then
              if (t.drop (column + 1)).take (p - (column + 1)) = orig then
                (t.take (column + 1) ++ esc ++ t.drop p, true)
              else (t, false)
            else (t, false)) =
          (match (if column + 1 < p then
                    some (p, (t.drop (column + 1)).take (p - (column + 1)))
                  else none) with
           | none => (t, false)
           | some (p2, content) =>
             if content = orig then
               (t.take (column + 1) ++ esc ++ t.drop p2, true)
             else (t, false))
      by_cases hlt : column + 1 < p
      · by_cases hc : (t.drop (column + 1)).take (p - (column + 1)) = orig
        · simp [hlt, hc]
        · simp [hlt, hc]
      · simp [hlt]

/-- C10: a literal-context patch touches only the candidate's own line — for
every other index the line array is unchanged — and on that line it either
does nothing (when no well-formed quote span exists at the recorded column,
or the span's current content does not match the expected original) or
replaces exactly the span between the opening quote and the closing quote
with the escaped text. -/
theorem C10_literalPatchFrame (lines : List Str) (l column : Nat)
    (orig esc t : Str) (hl : lines[l]? = some t) :
    (∀ j, j ≠ l →
      (applyLiteralFix lines (l + 1) column orig esc).1[j]? = lines[j]?) ∧
    (literalSpanAt t column = none →
      (applyLiteralFix lines (l + 1) column orig esc).1 = lines) ∧
    (∀ p content, literalSpanAt t column = some (p, content) → content ≠ orig →
      (applyLiteralFix lines (l + 1) column orig esc).1 = lines) ∧
    (∀ p, literalSpanAt t column = some (p, orig) →
      (applyLiteralFix lines (l + 1) column orig esc).1 =
        lines.set l (t.take (column + 1) ++ esc ++ t.drop p)) := by
  refine ⟨?_, ?_, ?_, ?_⟩
  · intro j hj
    simp only [applyLiteralFix_succ, hl]
    exact get_set_ne lines l j _ (Ne.symm hj)
  · intro hspan
    simp only [applyLiteralFix_succ, hl, patchOne_span, hspan]
    exact set_self_of_get lines l t hl
  · intro p content hspan hne
    simp only [applyLiteralFix_succ, hl, patchOne_span, hspan, if_neg hne]
    exact set_self_of_get lines l t hl
  · intro p hspan
    simp only [applyLiteralFix_succ, hl, patchOne_span, hspan, if_pos rfl]
    simp

/-- C10 witness on a concrete line: the span at column 1 is found and
patched, everything else untouched. -/
theorem C10_witness :
    (c10lines[0]? = some c10line ∧
      literalSpanAt c10line 1 = some (5, ['a', '&', 'b'])) ∧
    (applyLiteralFix c10lines 1 1 ['a', '&', 'b'] c10esc).1 =
      c10lines.set 0 (c10line.take 2 ++ c10esc ++ c10line.drop 5) :=
  ⟨⟨by decide, by decide⟩,
   (C10_literalPatchFrame c10lines 0 1 ['a', '&', 'b'] c10esc c10line
     (by decide)).2.2.2 5 (by decide)⟩

/-- C6 counterexample: the final save of processFile reports success without
comparing the re-read content to the intended content — with a divergent
re-read the outcome is still an unconditional success — whereas the
writeFileWithVerification helper of lib/file.js would have raised an
error on the same divergence. -/
theorem C6_counterexample :
    finalSave true c6lines c6bad = ⟨some c6content, true⟩ ∧
    c6bad ≠ c6content ∧
    writeFileWithVerification c6content c6bad = none := by decide

/-- C6 (amended): the write is refused exactly when the joined text contains
a doubled angle-bracket escape; otherwise the content is written and
reported successful regardless of what the re-read returns — the
byte-for-byte comparison exists only in the writeFileWithVerification
helper, which errors precisely when the re-read differs from the content. -/
theorem C6_writeGuard :
    (∀ (fileLines : List Str) (rb : Str),
      (strIncludes (joinWith nlC fileLines) dblLtE = true ∨
        strIncludes (joinWith nlC fileLines) dblGtE = true) →
      finalSave true fileLines rb = ⟨none, false⟩) ∧
    (∀ (fileLines : List Str) (rb : Str),
      strIncludes (joinWith nlC fileLines) dblLtE = false →
      strIncludes (joinWith nlC fileLines) dblGtE = false →
      finalSave true fileLines rb = ⟨some (joinWith nlC fileLines), true⟩) ∧
    (∀ content rb : Str,
      writeFileWithVerification content rb = none ↔ rb ≠ content) := by
  refine ⟨?_, ?_, ?_⟩
  · intro fileLines rb h
    unfold finalSave
    rcases h with h | h <;> simp [h]
  · intro fileLines rb h1 h2
    unfold finalSave
    simp [h1, h2]
  · intro content rb
    unfold writeFileWithVerification
    by_cases h : rb = content <;> simp [h]

/-- C6 witness: refusal on a corrupted file, acceptance on a clean one. -/
theorem C6_witness :
    (strIncludes (joinWith nlC c6corrupt) dblLtE = true ∧
      strIncludes (joinWith nlC c6lines) dblLtE = false ∧
      strIncludes (joinWith nlC c6lines) dblGtE = false) ∧
    (finalSave true c6corrupt c6bad = ⟨none, false⟩ ∧
     finalSave true c6lines c6bad = ⟨some (joinWith nlC c6lines), true⟩) :=
  ⟨⟨by decide, by decide, by decide⟩,
   ⟨C6_writeGuard.1 c6corrupt c6bad (Or.inl (by decide)),
    C6_writeGuard.2.1 c6lines c6bad (by decide) (by decide)⟩⟩

/-- C5 counterexample: a concrete run in which the file's mtime changes
after one patch has been applied in memory.  The later apply decisions are
each aborted, yet the run's final save still writes the pending in-memory
edit to disk, and the candidates after the mismatch are still presented. -/
theorem C5_counterexample :
    (runFixes [c5fix3, c5fix2, c5fix1] c5evs c5st).writes = [c5disk] ∧
    c5disk ≠ joinWith nlC [c5lineA, c5lineB, c5lineC] ∧
    mkFixKey c5fix1 ∈
      (runFixes [c5fix3, c5fix2, c5fix1] c5evs c5st).promptedKeys := by decide

/-- C5 (amended): every non-context keystroke first re-checks the on-disk
mtime against the stored one; a mismatch is detected (and the stored time
left unchanged), that candidate's handling is aborted with no state change
and control moves to the next candidate — not a whole-file abort — and
edits already applied in memory are still written by the final save. -/
theorem C5_mtimeGuard :
    (∀ t cur : Nat, t ≠ cur → checkModel (some t) cur = (true, some t)) ∧
    (∀ (f : LoopFix) (st : RunState) (e : Ev) (rest : List Ev) (t : Nat),
      e.resp ≠ .c → st.storedMtime = some t → t ≠ e.mtime →
      promptLoop f st (e :: rest) = .next st rest) ∧
    (∀ (evs : List Ev) (st : RunState),
      st.changed = true →
      strIncludes (joinWith nlC st.fileLines) dblLtE = false →
      strIncludes (joinWith nlC st.fileLines) dblGtE = false →
      (runFixes [] evs st).writes = [joinWith nlC st.fileLines]) := by
  refine ⟨?_, ?_, ?_⟩
  · intro t cur h
    unfold checkModel
    simp [h]
  · intro f st e rest t hne hst hmt
    have hc : checkModel st.storedMtime e.mtime = (true, some t) := by
      rw [hst]
      unfold checkModel
      simp [hmt]
    unfold promptLoop
    rw [if_neg hne, hc]
  · intro evs st h1 h2 h3
    unfold runFixes
    simp [h1, h2, h3]

/-- C5 witness: a mismatch aborts one candidate without touching the state,
and a changed state is still written by the final save. -/
theorem C5_witness :
    (c5wev.resp ≠ Resp.c ∧ c5wst.storedMtime = some 5 ∧
      (5 : Nat) ≠ c5wev.mtime ∧ c5wst2.changed = true) ∧
    (promptLoop c5wfix c5wst [c5wev] = .next c5wst [] ∧
     (runFixes [] [] c5wst2).writes = [joinWith nlC c5wst2.fileLines]) :=
  ⟨⟨by decide, rfl, by decide, rfl⟩,
   ⟨C5_mtimeGuard.2.1 c5wfix c5wst c5wev [] 5 (by decide) rfl (by decide),
    C5_mtimeGuard.2.2 [] c5wst2 rfl (by decide) (by decide)⟩⟩

theorem resp_ne_c (r0 : Resp) (h : r0 ≠ Resp.c) (mt : Nat) :
    ¬ ((⟨r0, mt⟩ : Ev).resp = Resp.c) := h

theorem promptLoop_next_mono :
    ∀ (evs : List Ev) (fix : LoopFix) (st st2 : RunState) (rest : List Ev),
      promptLoop fix st evs = .next st2 rest →
      ∀ k, k ∈ st.rejected → k ∈ st2.rejected := by
  intro evs
  induction evs with
  | nil =>
    intro fix st st2 rest h k hk
    simp [promptLoop] at h
  | cons e r ih =>
    intro fix st st2 rest h k hk
    obtain ⟨r0, mt⟩ := e
    cases r0 with
    | c =>
      have hc : promptLoop fix st ((⟨Resp.c, mt⟩ : Ev) :: r) =
          promptLoop fix st r := by
        simp [promptLoop]
      rw [hc] at h
      exact ih fix st st2 rest h k hk
    | y =>
      unfold promptLoop at h
      rw [if_neg (resp_ne_c Resp.y (by decide) mt)] at h
      cases hcm : checkModel st.storedMtime ((⟨Resp.y, mt⟩ : Ev)).mtime with
      | mk b s2 =>
        rw [hcm] at h
        cases b with
        | true =>
          simp at h
          rw [← h.1]
          exact hk
        | false =>
          simp at h
          rw [← h.1]
          exact hk
    | n =>
      unfold promptLoop at h
      rw [if_neg (resp_ne_c Resp.n (by decide) mt)] at h
      cases hcm : checkModel st.storedMtime ((⟨Resp.n, mt⟩ : Ev)).mtime with
      | mk b s2 =>
        rw [hcm] at h
        cases b with
        | true =>
          simp at h
          rw [← h.1]
          exact hk
        | false =>
          simp at h
          rw [← h.1]
          simp
          exact Or.inl hk
    | q =>
      unfold promptLoop at h
      rw [if_neg (resp_ne_c Resp.q (by decide) mt)] at h
      cases hcm : checkModel st.storedMtime ((⟨Resp.q, mt⟩ : Ev)).mtime with
      | mk b s2 =>
        rw [hcm] at h
        cases b with
        | true =>
          simp at h
          rw [← h.1]
          exact hk
        | false =>
          simp at h
          split at h <;> simp at h

/-- C8: a candidate whose key is already in rejection memory is skipped
before presentation — no run ever prompts for a key present in the map at
its start — and declining a candidate records exactly that key, so a
restarted run on the same candidate list yields zero prompts for it. -/
theorem C8_noReoffer :
    (∀ (fixes : List LoopFix) (evs : List Ev) (st : RunState) (k : FixKey),
      k ∈ st.rejected → k ∉ (runFixes fixes evs st).promptedKeys) ∧
    (∀ (f : LoopFix) (st : RunState) (e : Ev) (rest : List Ev) (s2 : Option Nat),
      e.resp = .n → checkModel st.storedMtime e.mtime = (false, s2) →
      promptLoop f st (e :: rest) =
        .next ⟨st.fileLines, st.changed,
          st.rejected ++ [mkFixKey f], s2⟩ rest) := by
  constructor
  · intro fixes
    induction fixes with
    | nil =>
      intro evs st k hk
      unfold runFixes
      simp [apply_ite]
    | cons f fs ih =>
      intro evs st k hk
      unfold runFixes
      by_cases hm : mkFixKey f ∈ st.rejected
      · rw [if_pos hm]
        exact ih evs st k hk
      · rw [if_neg hm]
        cases hp : promptLoop f st evs with
        | blocked stB =>
          simp only []
          intro hcon
          simp at hcon
          exact hm (hcon ▸ hk)
        | quitRun stQ ws =>
          simp only []
          intro hcon
          simp at hcon
          exact hm (hcon ▸ hk)
        | next stN rest =>
          simp only [List.mem_cons, not_or]
          constructor
          · intro he
            exact hm (he ▸ hk)
          · exact ih rest stN k (promptLoop_next_mono evs f st stN rest hp k hk)
  · intro f st e rest s2 hn hcm
    obtain ⟨r0, mt⟩ := e
    have hr : r0 = Resp.n := hn
    subst hr
    unfold promptLoop
    rw [if_neg (resp_ne_c Resp.n (by decide) mt), hcm]

/-- C8 witness: a state whose rejection memory already holds the fix's key
produces no prompt for that key. -/
theorem C8_witness :
    c8key ∈ c8st.rejected ∧
    c8key ∉ (runFixes [c8fix] [] c8st).promptedKeys :=
  ⟨by decide, C8_noReoffer.1 [c8fix] [] c8st c8key (by decide)⟩

end LH
